import Mathlib

/-!
A verification development for the Synta DSL front end.

This file gives a shallow embedding, in Lean 4, of the Synta front end:
the line-oriented lexer (`lexer.go`), the recursive-descent parser and its
post-parse validation (`parser.go`), the AST data model (`synta.go`), and
the pruning pass (`clear.go`).  Definitions are translated directly from
the Go sources; each definition's doc comment names the Go function or
type it embeds.

Modelling conventions:
* Go strings are modelled as `List Char` while scanning and as `String`
  in token values and identifiers.  The sources only ever treat bytes
  in the ASCII range specially, so the byte/char distinction is inert.
* The Go `map[Identifier]Definition` is modelled as an association list
  with first-match lookup; insertion prepends, which gives the same
  lookup semantics as Go's destructive update.  Reads of absent keys
  yield the zero `Definition`, exactly as in Go (`mapGet`).
* Fallible Go functions returning `(T, error)` become `Except SyntaErr T`
  with one error constructor per `fmt.Errorf`/`errors.New` site.
* Loops whose termination is by consumption of the remaining input are
  given explicit fuel; `ParseSynta` supplies fuel that dominates the
  token count, and all general theorems below are fuel-generic.
* The lexer is pull-based in Go; it is modelled eagerly (whole input to
  token list).  This preserves exactly which inputs parse successfully
  and the resulting `Synta` value, since a successful Go parse drains
  the lexer completely.  The first-error identity can differ only for
  inputs where a parse error on an earlier line coexists with a lex
  error on a later line; no statement below concerns such inputs.
* Go's `regexp` package is an external collaborator.  `regexp.Compile`
  is modelled as always succeeding, recording the pattern source text
  (no statement below depends on pattern compilability).  The one
  load-bearing regex, `IdentifierRegexp = regexp.MustCompile("[a-z]+")`,
  is used via the *unanchored* `Match`, which holds iff the subject
  contains at least one lowercase ASCII letter; it is modelled by
  `identifierRegexpMatch`.
-/

/-- The `type Identifier string` (synta.go).  Documented there as
"a lowercase alphabetical string". -/
abbrev Identifier := String

/-- The `TokenType` (lexer.go).  `filenameStart` is Go's `TokenFilenamePrefix`. -/
inductive TokenType where
  | eof
  | comment
  | equals
  | filenameStart
  | identifier
  | regexpPattern
  | dash
  | dot
  | lparen
  | rparen
  | question
deriving DecidableEq

/-- The `Token` (lexer.go): kind, literal text, intra-line position, line number. -/
structure Token where
  type  : TokenType
  value : String
  pos   : Nat
  line  : Nat
deriving DecidableEq

/-- The error surface: one constructor per `fmt.Errorf`/`errors.New` site in
lexer.go and parser.go, carrying the same data the Go message interpolates.
`outOfFuel` is an artifact of the fuelled embedding and is never produced
when the fuel dominates the remaining input (concrete runs below confirm). -/
inductive SyntaErr where
  /-- lexer.go:139 "invalid definition format at line %d: %s" -/
  | invalidDefinitionFormat (line : Nat) (text : String)
  /-- lexer.go:146 "invalid identifier at line %d: %s" -/
  | invalidIdentifier (line : Nat) (id : String)
  /-- lexer.go:223 "unexpected character '%c' at position %d in filename" -/
  | unexpectedCharacter (c : Char) (pos : Nat)
  /-- parser.go:77 "empty file provided" -/
  | emptyFile
  /-- parser.go:96 "unexpected token at line %d: %s" -/
  | unexpectedToken (line : Nat) (got : TokenType)
  /-- parser.go:109 "definition for `%s` is provided twice" -/
  | duplicateDefinition (id : Identifier)
  /-- parser.go:114 "multiple filename declarations found" -/
  | multipleFilenameDeclarations
  /-- parser.go:122 "missing filename declaration" -/
  | missingFilenameDeclaration
  /-- parser.go:130 "missing definition for `%s`" -/
  | missingDefinition (id : Identifier)
  /-- parser.go:140 "expected filename prefix, got %s" -/
  | expectedFilenameStart (got : TokenType)
  /-- parser.go:156 "expected '.' before extension, got %s" -/
  | expectedDotExtension (got : TokenType)
  /-- parser.go:191 "expected identifier at line %d, got %s" -/
  | expectedIdentifierAt (line : Nat) (got : TokenType)
  /-- parser.go:202 "expected '=' at line %d, got %s" -/
  | expectedEqualsAt (line : Nat) (got : TokenType)
  /-- parser.go:210 "expected regexp pattern at line %d, got %s" -/
  | expectedRegexpAt (line : Nat) (got : TokenType)
  /-- parser.go:216 "invalid regexp at line %d" (unreachable in this model,
  where the host regex engine is abstracted as always compiling) -/
  | invalidRegexp (line : Nat)
  /-- parser.go:234 "expected %s, got %s at line %d" (the `expect` helper) -/
  | expectedToken (expected : TokenType) (got : TokenType) (line : Nat)
  /-- parser.go:242 "expected identifier, got %s" (the `parseIdentifier` helper) -/
  | expectedIdentifierTok (got : TokenType)
  /-- parser.go:315 "unexpected end of file while parsing segments" -/
  | unexpectedEOFSegments
  /-- parser.go:325 "expected '.', '-', ')', or '(', got %s" -/
  | expectedSegmentSeparator (got : TokenType)
  /-- fuel exhaustion; an embedding artifact, not a Go error -/
  | outOfFuel
deriving DecidableEq

/-! ## Lexer (lexer.go) -/

/-- The `isLetter` (lexer.go): `c >= 'a' && c <= 'z'`. -/
def isLetter (c : Char) : Bool := 'a' ≤ c && c ≤ 'z'

/-- The set trimmed by Go's `strings.TrimSpace` (restricted to the ASCII
whitespace characters, which are the only ones the sources can meet in
the inputs considered here). -/
def isSpaceGo (c : Char) : Bool :=
  c = ' ' || c = '\t' || c = '\n' || c = '\x0b' || c = '\x0c' || c = '\r'

/-- The `strings.TrimSpace`: drop whitespace at both ends. -/
def trimSpace (s : List Char) : List Char :=
  ((s.dropWhile isSpaceGo).reverse.dropWhile isSpaceGo).reverse

/-- The `bufio.ScanLines` drops one trailing `'\r'` from each line. -/
def dropCR (s : List Char) : List Char :=
  if s.getLast? = some '\r' then s.dropLast else s

/-- Helper for `splitLines`: accumulate the current line (reversed). -/
def splitLinesAux (cur : List Char) : List Char → List (List Char)
  | [] => [cur.reverse]
  | '\n' :: [] => [cur.reverse]
  | '\n' :: rest => cur.reverse :: splitLinesAux [] rest
  | c :: rest => splitLinesAux (c :: cur) rest

/-- Split input into lines as `bufio.Scanner` with `ScanLines` does:
no lines for empty input, and a final `'\n'` does not open a new line. -/
def splitLines : List Char → List (List Char)
  | [] => []
  | c :: rest => splitLinesAux [] (c :: rest)

/-- Split at the first occurrence of `sep`, as `strings.SplitN(s, sep, 2)`
does: `none` when `sep` does not occur, otherwise the text before the
first occurrence and the (verbatim) text after it. -/
def splitOnce (sep : List Char) : List Char → Option (List Char × List Char)
  | [] => if sep.isPrefixOf ([] : List Char) then some ([], []) else none
  | c :: rest =>
    if sep.isPrefixOf (c :: rest) then some ([], (c :: rest).drop sep.length)
    else (splitOnce sep rest).map (fun p => (c :: p.1, p.2))

/-- The `IdentifierRegexp.Match` (synta.go:8, lexer.go:145).  The Go pattern is
`[a-z]+` *without anchors*, and `regexp.Match` searches for the pattern
anywhere in the subject; hence it holds iff the subject contains at least
one lowercase ASCII letter. -/
def identifierRegexpMatch (s : List Char) : Bool := s.any isLetter

/-- The `tokenizeDefinition` (lexer.go:136): split once on `" = "`, check the
left part against `IdentifierRegexp`, and emit Identifier, Equals,
RegexpPattern tokens (the lexer queues them; eagerly, the queue is the
returned list). -/
def tokenizeDefinition (line : List Char) (lineNum : Nat) : Except SyntaErr (List Token) :=
  match splitOnce (' ' :: '=' :: ' ' :: []) line with
  | none => .error (.invalidDefinitionFormat lineNum ⟨line⟩)
  | some (id, pat) =>
    if identifierRegexpMatch id then
      .ok [⟨.identifier, ⟨id⟩, 0, lineNum⟩, ⟨.equals, "=", 0, lineNum⟩,
           ⟨.regexpPattern, ⟨pat⟩, 0, lineNum⟩]
    else .error (.invalidIdentifier lineNum ⟨id⟩)

/-- The `parseFilenameSegments` (lexer.go:187): character-by-character scan of
the text after `"> "`, producing single-character tokens for `-.()?` and
maximal lowercase runs as Identifier tokens.  Structured with fuel; each
step consumes at least one character, so `length + 1` fuel suffices. -/
def scanFilename (lineNum : Nat) : Nat → List Char → Nat → Except SyntaErr (List Token)
  | 0, _, _ => .error .outOfFuel
  | _ + 1, [], _ => .ok []
  | fuel + 1, c :: rest, pos =>
    if c = '-' then
      (scanFilename lineNum fuel rest (pos + 1)).map (⟨.dash, "-", pos, lineNum⟩ :: ·)
    else if c = '.' then
      (scanFilename lineNum fuel rest (pos + 1)).map (⟨.dot, ".", pos, lineNum⟩ :: ·)
    else if c = '(' then
      (scanFilename lineNum fuel rest (pos + 1)).map (⟨.lparen, "(", pos, lineNum⟩ :: ·)
    else if c = ')' then
      (scanFilename lineNum fuel rest (pos + 1)).map (⟨.rparen, ")", pos, lineNum⟩ :: ·)
    else if c = '?' then
      (scanFilename lineNum fuel rest (pos + 1)).map (⟨.question, "?", pos, lineNum⟩ :: ·)
    else if isLetter c then
      let run := c :: rest.takeWhile isLetter
      let rest' := rest.dropWhile isLetter
      (scanFilename lineNum fuel rest' (pos + run.length)).map
        (⟨.identifier, ⟨run⟩, pos, lineNum⟩ :: ·)
    else .error (.unexpectedCharacter c pos)

/-- One trimmed, non-blank line's tokens (`NextToken`'s line classification,
lexer.go:102-118, together with `tokenizeFilename`, lexer.go:163, whose
queue shuffling nets out to prefix token followed by the segment tokens). -/
def tokenizeLine (line : List Char) (lineNum : Nat) : Except SyntaErr (List Token) :=
  match line with
  | ';' :: rest => .ok [⟨.comment, ⟨trimSpace rest⟩, 0, lineNum⟩]
  | '>' :: ' ' :: rest =>
    (scanFilename lineNum (rest.length + 1) rest 0).map
      (⟨.filenameStart, ">", 0, lineNum⟩ :: ·)
  | _ => tokenizeDefinition line lineNum

/-- Tokenize a list of (1-based line number, trimmed non-blank line) pairs
in order, concatenating each line's token queue. -/
def tokenizeLines : List (Nat × List Char) → Except SyntaErr (List Token)
  | [] => .ok []
  | (ln, line) :: rest =>
    match tokenizeLine line ln with
    | .error e => .error e
    | .ok ts =>
      match tokenizeLines rest with
      | .error e => .error e
      | .ok more => .ok (ts ++ more)

/-- The token stream as the parser observes it: the queued tokens plus the
line number carried by the final EOF token (Go's `l.lineNum` after the
scanner is exhausted, i.e. the total number of physical lines). -/
structure TokStream where
  toks    : List Token
  eofLine : Nat
deriving DecidableEq

/-- The `readNextLine` (lexer.go:122), run over the whole input: number the
physical lines 1-based (Go's `l.lineNum++` fires on every scanned line,
blank or not), trim each, and keep only the non-blank ones paired with
their line number. -/
def numberLines (n : Nat) : List (List Char) → List (Nat × List Char)
  | [] => []
  | l :: rest =>
    let t := trimSpace (dropCR l)
    if t.isEmpty then numberLines (n + 1) rest
    else (n + 1, t) :: numberLines (n + 1) rest

/-- The whole lexer, run eagerly: split into physical lines, trim, skip
blanks, tokenize each remaining line; the EOF token's line number is the
total physical line count. -/
def lexContents (contents : String) : Except SyntaErr TokStream :=
  let raw := splitLines contents.data
  match tokenizeLines (numberLines 0 raw) with
  | .error e => .error e
  | .ok toks => .ok ⟨toks, raw.length⟩

/-! ## AST data model (synta.go) -/

/-- The `NodeType` (synta.go). -/
inductive NodeType where
  | definition
  | filename
deriving DecidableEq

/-- The `SegmentType` (synta.go). -/
inductive SegmentType where
  | identifier
  | optional
deriving DecidableEq

/-- The `Segment` (synta.go): kind tag, `Value *Identifier` (nil modelled as
`none`), `Subsegments []Segment`.  Only the two enum values of
`SegmentType` are ever constructed in the sources. -/
inductive Segment where
  | mk (kind : SegmentType) (value : Option Identifier) (subsegments : List Segment)

/-- The `Segment.Kind` accessor. -/
def Segment.kind : Segment → SegmentType
  | .mk k _ _ => k

/-- The `Segment.Value` accessor. -/
def Segment.value : Segment → Option Identifier
  | .mk _ v _ => v

/-- The `Segment.Subsegments` accessor. -/
def Segment.subsegments : Segment → List Segment
  | .mk _ _ s => s

/-- Go's `*seg.Value`: dereference of a possibly-nil pointer.  The parser
only dereferences values it has set; a nil dereference (which would panic
in Go) is modelled as the empty identifier. -/
def derefValue (v : Option Identifier) : Identifier := v.getD ""

/-- The `Definition` (synta.go): documentation comments and the compiled
regexp, modelled by its source text (`none` is Go's nil pointer). -/
structure Definition where
  comments : List String
  regexp   : Option String
deriving DecidableEq

/-- The zero `Definition`, as produced by reading an absent map key in Go. -/
def zeroDefinition : Definition := ⟨[], none⟩

/-- The `Filename` (synta.go). -/
structure Filename where
  segments  : List Segment
  extension : Identifier

/-- The zero `Filename` (Go's zero value; `Extension == ""` is the
parser's "no filename seen yet" sentinel). -/
def zeroFilename : Filename := ⟨[], ""⟩

/-- The `Node` (synta.go): statement tag plus the per-kind payload fields
(unused fields hold their Go zero values). -/
structure Node where
  type       : NodeType
  identifier : Identifier
  definition : Option Definition
  filename   : Option Filename

/-- The `map[Identifier]Definition`, as an association list with first-match
lookup.  Insertion prepends; since lookup takes the first hit this has
exactly Go's overwrite semantics. -/
abbrev DefMap := List (Identifier × Definition)

/-- Map lookup (`v, ok := m[k]` with `ok` = `isSome`). -/
def lookupD (m : DefMap) (k : Identifier) : Option Definition :=
  (m.find? (fun p => p.1 = k)).map (fun p => p.2)

/-- Map read in value position (`m[k]`), returning the zero `Definition`
for an absent key, as Go does. -/
def mapGet (m : DefMap) (k : Identifier) : Definition :=
  (lookupD m k).getD zeroDefinition

/-- Map insertion (`m[k] = v`). -/
def mapSet (m : DefMap) (k : Identifier) (v : Definition) : DefMap :=
  (k, v) :: m

/-- The `Synta` (synta.go): source-ordered nodes, the definitions map, and the
filename. -/
structure Synta where
  nodes       : List Node
  definitions : DefMap
  filename    : Filename

/-! ## Parser (parser.go) -/

/-- The parser's current token: the head of the stream, or the EOF token
(`Token{Type: TokenEOF, Line: l.lineNum}`) when the stream is drained. -/
def curTok (ts : TokStream) : Token :=
  match ts.toks with
  | [] => ⟨.eof, "", 0, ts.eofLine⟩
  | t :: _ => t

/-- The `p.advance()`: drop the current token. -/
def advT (ts : TokStream) : TokStream :=
  match ts.toks with
  | [] => ts
  | _ :: rest => ⟨rest, ts.eofLine⟩

/-- The `expect` (parser.go:232). -/
def expect (expected : TokenType) (ts : TokStream) : Except SyntaErr TokStream :=
  if (curTok ts).type = expected then .ok (advT ts)
  else .error (.expectedToken expected (curTok ts).type (curTok ts).line)

/-- The `parseIdentifier` (parser.go:240). -/
def parseIdentifier (ts : TokStream) : Except SyntaErr (Identifier × TokStream) :=
  if (curTok ts).type = .identifier then .ok ((curTok ts).value, advT ts)
  else .error (.expectedIdentifierTok (curTok ts).type)

mutual

/-- The `parseSegments` (parser.go:296): parse one segment, then dispatch on
the separator: `.` or `)` end the sequence, `-` is consumed and another
segment follows, `(` is *not* consumed and another segment follows
directly, EOF and anything else are errors. -/
def parseSegments : Nat → TokStream → Except SyntaErr (List Segment × TokStream)
  | 0, _ => .error .outOfFuel
  | fuel + 1, ts =>
    match parseSegment fuel ts with
    | .error e => .error e
    | .ok (seg, ts₁) =>
      match (curTok ts₁).type with
      | .dot => .ok ([seg], ts₁)
      | .rparen => .ok ([seg], ts₁)
      | .eof => .error .unexpectedEOFSegments
      | .dash =>
        match parseSegments fuel (advT ts₁) with
        | .error e => .error e
        | .ok (segs, ts₂) => .ok (seg :: segs, ts₂)
      | .lparen =>
        match parseSegments fuel ts₁ with
        | .error e => .error e
        | .ok (segs, ts₂) => .ok (seg :: segs, ts₂)
      | t => .error (.expectedSegmentSeparator t)
termination_by structural fuel => fuel

/-- The `parseSegment` (parser.go:252): an optional group if the current token
is `(`, else a bare identifier segment. -/
def parseSegment : Nat → TokStream → Except SyntaErr (Segment × TokStream)
  | 0, _ => .error .outOfFuel
  | fuel + 1, ts =>
    if (curTok ts).type = .lparen then parseOptional fuel ts
    else
      match parseIdentifier ts with
      | .error e => .error e
      | .ok (id, ts₁) => .ok (.mk .identifier (some id) [], ts₁)
termination_by structural fuel => fuel

/-- The `parseOptional` (parser.go:267): `(` `-` segments `)` `?` (each Go
`if err != nil { return }` spelt as an explicit match on the error). -/
def parseOptional : Nat → TokStream → Except SyntaErr (Segment × TokStream)
  | 0, _ => .error .outOfFuel
  | fuel + 1, ts =>
    match expect .lparen ts with
    | .error e => .error e
    | .ok ts₁ =>
      match expect .dash ts₁ with
      | .error e => .error e
      | .ok ts₂ =>
        match parseSegments fuel ts₂ with
        | .error e => .error e
        | .ok (subs, ts₃) =>
          match expect .rparen ts₃ with
          | .error e => .error e
          | .ok ts₄ =>
            match expect .question ts₄ with
            | .error e => .error e
            | .ok ts₅ => .ok (.mk .optional none subs, ts₅)
termination_by structural fuel => fuel

end

/-- The comment-collecting loop opening `parseDefinitionNode`
(parser.go:182): consume leading Comment tokens, in order. -/
def collectCommentsL : List Token → List String × List Token
  | [] => ([], [])
  | t :: rest =>
    if t.type = .comment then
      let r := collectCommentsL rest
      (t.value :: r.1, r.2)
    else ([], t :: rest)

/-- The `parseDefinitionNode` (parser.go:178): comments, Identifier, Equals,
RegexpPattern in strict sequence; the regexp is compiled here (host
engine, modelled as always succeeding with the source text retained). -/
def parseDefinitionNode (ts : TokStream) : Except SyntaErr (Node × TokStream) :=
  let r := collectCommentsL ts.toks
  let ts₁ : TokStream := ⟨r.2, ts.eofLine⟩
  let t₁ := curTok ts₁
  if t₁.type = .identifier then
    let ts₂ := advT ts₁
    let t₂ := curTok ts₂
    if t₂.type = .equals then
      let ts₃ := advT ts₂
      let t₃ := curTok ts₃
      if t₃.type = .regexpPattern then
        .ok (⟨.definition, t₁.value, some ⟨r.1, some t₃.value⟩, none⟩, advT ts₃)
      else .error (.expectedRegexpAt t₃.line t₃.type)
    else .error (.expectedEqualsAt t₂.line t₂.type)
  else .error (.expectedIdentifierAt t₁.line t₁.type)

/-- The `parseFilenameNode` (parser.go:138): `>` prefix, segment sequence,
`.`, extension identifier. -/
def parseFilenameNode (fuel : Nat) (ts : TokStream) : Except SyntaErr (Node × TokStream) :=
  if (curTok ts).type = .filenameStart then
    match parseSegments fuel (advT ts) with
    | .error e => .error e
    | .ok (segments, ts₂) =>
      if (curTok ts₂).type = .dot then
        match parseIdentifier (advT ts₂) with
        | .error e => .error e
        | .ok (ext, ts₄) => .ok (⟨.filename, "", none, some ⟨segments, ext⟩⟩, ts₄)
      else .error (.expectedDotExtension (curTok ts₂).type)
  else .error (.expectedFilenameStart (curTok ts).type)

mutual

/-- The `getRequiredIdentifiers` (parser.go:33) on a single segment: optional
segments contribute their children's identifiers recursively, any other
segment contributes `*seg.Value`. -/
def getRequiredIdentifiersSeg : Segment → List Identifier
  | .mk kind value subs =>
    if kind = .optional then getRequiredIdentifiers subs
    else [derefValue value]
termination_by structural s => s

/-- The `getRequiredIdentifiers` (parser.go:33): every identifier reachable
from a segment list, in traversal order. -/
def getRequiredIdentifiers : List Segment → List Identifier
  | [] => []
  | seg :: rest => getRequiredIdentifiersSeg seg ++ getRequiredIdentifiers rest
termination_by structural l => l

end

/-- The post-loop validation of `parseFile` (parser.go:120-134): require a
filename, then require a definition for every identifier reachable from
the filename's segments plus the extension (first missing one reported). -/
def finalizeSynta (s : Synta) : Except SyntaErr Synta :=
  if s.filename.extension = "" then .error .missingFilenameDeclaration
  else
    match (getRequiredIdentifiers s.filename.segments ++ [s.filename.extension]).find?
        (fun id => !(lookupD s.definitions id).isSome) with
    | some id => .error (.missingDefinition id)
    | none => .ok s

/-- The statement dispatch at the top of the loop body (parser.go:85-97):
Comment and Identifier open a definition statement, the filename marker a
filename statement, anything else is "unexpected token". -/
def parseNodeStep (fuel : Nat) (ts : TokStream) : Except SyntaErr (Node × TokStream) :=
  match (curTok ts).type with
  | .comment => parseDefinitionNode ts
  | .identifier => parseDefinitionNode ts
  | .filenameStart => parseFilenameNode fuel ts
  | _ => .error (.unexpectedToken (curTok ts).line (curTok ts).type)

/-- The quick-access bookkeeping of the loop body (parser.go:103-117):
append the node, then either record its definition (rejecting a duplicate
key) or record the filename (rejecting a second declaration). -/
def applyNode (s : Synta) (node : Node) : Except SyntaErr Synta :=
  let s₁ : Synta := ⟨s.nodes ++ [node], s.definitions, s.filename⟩
  match node.type with
  | .definition =>
    if (lookupD s₁.definitions node.identifier).isSome then
      .error (.duplicateDefinition node.identifier)
    else
      .ok ⟨s₁.nodes, mapSet s₁.definitions node.identifier
            (node.definition.getD zeroDefinition), s₁.filename⟩
  | .filename =>
    if s₁.filename.extension ≠ "" then .error .multipleFilenameDeclarations
    else .ok ⟨s₁.nodes, s₁.definitions, node.filename.getD zeroFilename⟩

/-- The statement loop of `parseFile` (parser.go:81-118): dispatch, append
and record, repeat; on EOF run the post-loop validation. -/
def parseFileLoop : Nat → TokStream → Synta → Except SyntaErr Synta
  | 0, _, _ => .error .outOfFuel
  | fuel + 1, ts, s =>
    if (curTok ts).type = .eof then finalizeSynta s
    else
      match parseNodeStep fuel ts with
      | .error e => .error e
      | .ok (node, ts₁) =>
        match applyNode s node with
        | .error e => .error e
        | .ok s₂ => parseFileLoop fuel ts₁ s₂

/-- The `parseFile` (parser.go:72): empty-input check, statement loop,
post-loop validation (the latter lives in `parseFileLoop`/`finalizeSynta`). -/
def parseFile (fuel : Nat) (ts : TokStream) : Except SyntaErr Synta :=
  if (curTok ts).type = .eof then .error .emptyFile
  else parseFileLoop fuel ts ⟨[], [], zeroFilename⟩

/-- The `ParseSynta`/`ParseSyntaFromReader` (parser.go:14,19): lex, then parse.
The fuel comfortably dominates the token count (every recursion step of
the fuelled parser functions consumes input). -/
def ParseSynta (contents : String) : Except SyntaErr Synta :=
  match lexContents contents with
  | .error e => .error e
  | .ok ts => parseFile (4 * ts.toks.length + 8) ts

/-! ## Pruning pass (clear.go) -/

mutual

/-- One step of `clearSegments` (clear.go:12): an identifier segment copies
its definition from the source document into the accumulating map, an
optional segment recurses into its children. -/
def clearSegment (synta : Synta) : Segment → DefMap → DefMap
  | .mk kind value subs, acc =>
    match kind with
    | .identifier => mapSet acc (derefValue value) (mapGet synta.definitions (derefValue value))
    | .optional => clearSegments synta subs acc
termination_by structural s => s

/-- The `clearSegments` (clear.go:12), with the destructively-updated map
`s.Definitions` threaded as the accumulator `acc`. -/
def clearSegments (synta : Synta) : List Segment → DefMap → DefMap
  | [], acc => acc
  | seg :: rest, acc => clearSegments synta rest (clearSegment synta seg acc)
termination_by structural l => l

end

/-- The `Clear` (clear.go:4): a new `Synta` with the input's filename, an
empty node list (Go zero value), and a definitions map rebuilt from
scratch with the extension's definition plus those reachable from the
segment tree. -/
def Clear (synta : Synta) : Synta :=
  let fn := synta.filename
  ⟨[], clearSegments synta fn.segments
      (mapSet [] fn.extension (mapGet synta.definitions fn.extension)), fn⟩


/-! ## Helper lemmas: the definitions map -/

/-- Lookup after insertion behaves like a map update. -/
theorem lookupD_mapSet (m : DefMap) (k k' : Identifier) (v : Definition) :
    lookupD (mapSet m k' v) k = if k = k' then some v else lookupD m k := by
  by_cases h : k' = k
  · subst h; simp [lookupD, mapSet, List.find?_cons_of_pos]
  · rw [if_neg (fun hh => h hh.symm)]
    simp [lookupD, mapSet, List.find?_cons_of_neg, h]

/-- Lookup in the empty map. -/
theorem lookupD_nil (k : Identifier) : lookupD [] k = none := rfl
/-! ## Helper lemmas: reachability and the pruning pass -/

/-- Induction over segment lists that also descends into the children of
each segment (the traversal shared by `getRequiredIdentifiers` and
`clearSegments`). -/
theorem segList_ind {Q : List Segment → Prop}
    (hnil : Q [])
    (hcons : ∀ kind value subs rest, Q subs → Q rest → Q (Segment.mk kind value subs :: rest)) :
    ∀ segs, Q segs
  | [] => hnil
  | .mk k v subs :: rest =>
    hcons k v subs rest (segList_ind hnil hcons subs) (segList_ind hnil hcons rest)

/-- What `clearSegments` makes visible: exactly the identifiers the
segment list requires, each bound to its `mapGet` read from the source
document; everything else falls through to the accumulator. -/
theorem lookup_clearSegments (d : Synta) (segs : List Segment) :
    ∀ (acc : DefMap) (k : Identifier),
      lookupD (clearSegments d segs acc) k =
        if k ∈ getRequiredIdentifiers segs then some (mapGet d.definitions k)
        else lookupD acc k := by
  induction segs using segList_ind with
  | hnil => intro acc k; simp [clearSegments, getRequiredIdentifiers]
  | hcons kind value subs rest ihsubs ihrest =>
    intro acc k
    rw [show clearSegments d (.mk kind value subs :: rest) acc =
          clearSegments d rest (clearSegment d (.mk kind value subs) acc) from rfl,
        ihrest,
        show getRequiredIdentifiers (.mk kind value subs :: rest) =
          getRequiredIdentifiersSeg (.mk kind value subs) ++ getRequiredIdentifiers rest from rfl]
    cases kind with
    | identifier =>
      rw [show clearSegment d (.mk .identifier value subs) acc =
            mapSet acc (derefValue value) (mapGet d.definitions (derefValue value)) from rfl,
          lookupD_mapSet,
          show getRequiredIdentifiersSeg (.mk .identifier value subs) =
            [derefValue value] from rfl]
      by_cases h₁ : k ∈ getRequiredIdentifiers rest
      · simp [h₁]
      · by_cases h₂ : k = derefValue value <;> simp [h₁, h₂]
    | optional =>
      rw [show clearSegment d (.mk .optional value subs) acc =
            clearSegments d subs acc from rfl,
          ihsubs,
          show getRequiredIdentifiersSeg (.mk .optional value subs) =
            getRequiredIdentifiers subs from rfl]
      by_cases h₁ : k ∈ getRequiredIdentifiers rest
      · simp [h₁]
      · by_cases h₂ : k ∈ getRequiredIdentifiers subs <;> simp [h₁, h₂]

/-- The full lookup law for `Clear`: reachable identifiers (segment tree
first, extension second) are bound to their `mapGet` reads from the input
document; everything else is absent. -/
theorem lookup_Clear (d : Synta) (k : Identifier) :
    lookupD (Clear d).definitions k =
      if k ∈ getRequiredIdentifiers d.filename.segments then some (mapGet d.definitions k)
      else if k = d.filename.extension then
        some (mapGet d.definitions d.filename.extension)
      else none := by
  rw [show (Clear d).definitions =
        clearSegments d d.filename.segments
          (mapSet [] d.filename.extension (mapGet d.definitions d.filename.extension)) from rfl,
      lookup_clearSegments, lookupD_mapSet, lookupD_nil]

/-- A validated document: every identifier reachable from the filename's
segment tree, and the extension, has a definition (the condition
`parseFile` enforces in its final validation pass). -/
abbrev Validated (d : Synta) : Prop :=
  ∀ id ∈ getRequiredIdentifiers d.filename.segments ++ [d.filename.extension],
    (lookupD d.definitions id).isSome = true

/-- Reads through `Clear` agree with reads from the input document on
every reachable identifier and on the extension. -/
theorem mapGet_Clear (d : Synta) (k : Identifier)
    (h : k ∈ getRequiredIdentifiers d.filename.segments ∨ k = d.filename.extension) :
    mapGet (Clear d).definitions k = mapGet d.definitions k := by
  rw [mapGet, lookup_Clear]
  rcases h with h | h
  · simp [h, mapGet]
  · subst h
    by_cases hr : d.filename.extension ∈ getRequiredIdentifiers d.filename.segments <;>
      simp [hr, mapGet]

/-- C2: for every validated input document `d` (one whose filename
identifiers and extension all have definitions), `Clear d` is a new
document whose definitions mapping has as keys exactly the extension
identifier plus every identifier reachable from `d`'s filename segment
tree (recursing into optional segments), each mapped to the same
definition value as in `d`.  (`Clear` is a pure function of `d` in this
embedding — in the Go source it writes only into the freshly allocated
map of the result, never into its argument.) -/
theorem C2_clear_definitions_exact (d : Synta) (h : Validated d) :
    ∀ k : Identifier,
      lookupD (Clear d).definitions k =
        if k = d.filename.extension ∨ k ∈ getRequiredIdentifiers d.filename.segments
        then lookupD d.definitions k
        else none := by
  intro k
  rw [lookup_Clear]
  by_cases hr : k ∈ getRequiredIdentifiers d.filename.segments
  · obtain ⟨v, hv⟩ := Option.isSome_iff_exists.mp (h k (List.mem_append.mpr (Or.inl hr)))
    simp [hr, mapGet, hv]
  · by_cases he : k = d.filename.extension
    · subst he
      obtain ⟨v, hv⟩ := Option.isSome_iff_exists.mp
        (h d.filename.extension (List.mem_append.mpr (Or.inr (List.mem_singleton.mpr rfl))))
      simp [hr, mapGet, hv]
    · simp [hr, he]

/-- A concrete validated document used to witness the pruning theorems:
definitions for `a` and `b`, filename `a(-b)?.a`, plus an unreferenced
definition `c` that pruning must drop. -/
def exampleDoc : Synta :=
  ⟨[], [("a", ⟨[], some "x"⟩), ("b", ⟨["doc"], some "y"⟩), ("c", ⟨[], some "z"⟩)],
   ⟨[.mk .identifier (some "a") [], .mk .optional none [.mk .identifier (some "b") []]], "a"⟩⟩

/-- Witness for C2 at a concrete validated document: the reachable key
`b` keeps its definition and the unreachable key `c` is dropped. -/
theorem C2_witness :
    Validated exampleDoc ∧
    lookupD (Clear exampleDoc).definitions "b" =
      (if "b" = exampleDoc.filename.extension ∨
          "b" ∈ getRequiredIdentifiers exampleDoc.filename.segments
       then lookupD exampleDoc.definitions "b" else none) ∧
    lookupD (Clear exampleDoc).definitions "c" =
      (if "c" = exampleDoc.filename.extension ∨
          "c" ∈ getRequiredIdentifiers exampleDoc.filename.segments
       then lookupD exampleDoc.definitions "c" else none) :=
  ⟨by decide, C2_clear_definitions_exact exampleDoc (by decide) "b",
   C2_clear_definitions_exact exampleDoc (by decide) "c"⟩

/-- C3: pruning is idempotent on the definition set — for every validated
document `d`, `Clear (Clear d)` and `Clear d` have extensionally equal
definitions mappings (same keys, same definition values). -/
theorem C3_clear_idempotent (d : Synta) (_h : Validated d) :
    ∀ k : Identifier,
      lookupD (Clear (Clear d)).definitions k = lookupD (Clear d).definitions k := by
  intro k
  rw [lookup_Clear (Clear d) k, lookup_Clear d k,
      show (Clear d).filename = d.filename from rfl]
  by_cases hr : k ∈ getRequiredIdentifiers d.filename.segments
  · rw [if_pos hr, if_pos hr, mapGet_Clear d k (Or.inl hr)]
  · by_cases he : k = d.filename.extension
    · subst he
      rw [if_neg hr, if_neg hr, if_pos rfl, if_pos rfl,
        mapGet_Clear d _ (Or.inr rfl)]
    · simp [hr, he]

/-- Witness for C3 at the concrete validated document. -/
theorem C3_witness :
    Validated exampleDoc ∧
    lookupD (Clear (Clear exampleDoc)).definitions "b" =
      lookupD (Clear exampleDoc).definitions "b" :=
  ⟨by decide, C3_clear_idempotent exampleDoc (by decide) "b"⟩

/-- C10: `Clear` carries over exactly the input's filename (identical
segment tree and extension) and produces an empty node list; only the
definitions mapping is rebuilt. -/
theorem C10_clear_frame (d : Synta) :
    (Clear d).filename = d.filename ∧ (Clear d).nodes = [] :=
  ⟨rfl, rfl⟩

/-! ## Helper lemmas: the parser's final validation -/
/-- Inverting `finalizeSynta`: success returns the document unchanged,
guarantees a filename was recorded, and guarantees every required
identifier (segment tree plus extension) has a definition. -/
theorem finalizeSynta_ok {s s' : Synta} (h : finalizeSynta s = .ok s') :
    s' = s ∧ s.filename.extension ≠ "" ∧
      ∀ id ∈ getRequiredIdentifiers s.filename.segments ++ [s.filename.extension],
        (lookupD s.definitions id).isSome = true := by
  rw [finalizeSynta] at h
  by_cases he : s.filename.extension = ""
  · rw [if_pos he] at h; exact absurd h (by simp)
  · rw [if_neg he] at h
    cases hf : (getRequiredIdentifiers s.filename.segments ++ [s.filename.extension]).find?
        (fun id => !(lookupD s.definitions id).isSome) with
    | some id => rw [hf] at h; exact absurd h (by simp)
    | none =>
      rw [hf] at h
      refine ⟨by cases h; rfl, he, ?_⟩
      intro id hid
      have hni := List.find?_eq_none.mp hf id hid
      simp only [Bool.not_eq_true', Bool.not_eq_false] at hni
      exact hni
/-- Inverting the statement loop: success always flows through
`finalizeSynta` on some accumulated document. -/
theorem parseFileLoop_ok : ∀ (fuel : Nat) (ts : TokStream) (s s' : Synta),
    parseFileLoop fuel ts s = .ok s' → ∃ s₀, finalizeSynta s₀ = .ok s' := by
  intro fuel
  induction fuel with
  | zero => intro ts s s' h; exact absurd h (by simp [parseFileLoop])
  | succ fuel ih =>
    intro ts s s' h
    rw [parseFileLoop] at h
    by_cases he : (curTok ts).type = .eof
    · rw [if_pos he] at h; exact ⟨s, h⟩
    · rw [if_neg he] at h
      split at h
      · exact absurd h (by simp)
      · split at h
        · exact absurd h (by simp)
        · exact ih _ _ s' h

/-- C1: for every input text on which `ParseSynta` succeeds, every
identifier occurring in the returned document's filename segment tree
(identifier segments directly, recursively through the children of every
optional segment) together with the filename's extension identifier is
present as a key in the returned document's definitions mapping. -/
theorem C1_required_identifiers_defined (contents : String) (s : Synta)
    (h : ParseSynta contents = .ok s) :
    ∀ id : Identifier,
      (id ∈ getRequiredIdentifiers s.filename.segments ∨ id = s.filename.extension) →
      (lookupD s.definitions id).isSome = true := by
  intro id hid
  rw [ParseSynta] at h
  split at h
  · exact absurd h (by simp)
  · rw [parseFile] at h
    split at h
    · exact absurd h (by simp)
    · obtain ⟨s₀, hfin⟩ := parseFileLoop_ok _ _ _ _ h
      obtain ⟨hs, _hext, hall⟩ := finalizeSynta_ok hfin
      subst hs
      rcases hid with hid | hid
      · exact hall id (List.mem_append.mpr (Or.inl hid))
      · exact hall id (List.mem_append.mpr (Or.inr (by simp [hid])))

/-- The concrete source text `a = x\nb = y\n> a(-b)?.a` used to witness
the success-path theorems. -/
def exampleSrc : String := "a = x\nb = y\n> a(-b)?.a"

/-- The document `ParseSynta exampleSrc` produces (checked by `rfl` in the
witnesses below): definitions for `a` and `b`, filename segments
`a` then the optional group `(-b)?`, extension `a`. -/
def exampleParsed : Synta :=
  ⟨[⟨.definition, "a", some ⟨[], some "x"⟩, none⟩,
    ⟨.definition, "b", some ⟨[], some "y"⟩, none⟩,
    ⟨.filename, "", none,
      some ⟨[.mk .identifier (some "a") [], .mk .optional none [.mk .identifier (some "b") []]], "a"⟩⟩],
   [("b", ⟨[], some "y"⟩), ("a", ⟨[], some "x"⟩)],
   ⟨[.mk .identifier (some "a") [], .mk .optional none [.mk .identifier (some "b") []]], "a"⟩⟩

/-- Witness for C1: on the concrete parse of `exampleSrc`, the identifier
`b` (reachable only through the optional group) has a definition. -/
theorem C1_witness : (lookupD exampleParsed.definitions "b").isSome = true :=
  C1_required_identifiers_defined exampleSrc exampleParsed rfl "b" (Or.inl (by decide))

/-! ## Helper lemmas: well-formedness of parsed segment trees -/

mutual

/-- Tree-wide well-formedness of one segment: an optional segment has a
non-empty child list, and the children are recursively well-formed. -/
def segWFSeg : Segment → Bool
  | .mk kind _ subs => (if kind = .optional then !subs.isEmpty else true) && segWFList subs
termination_by structural s => s

/-- Tree-wide well-formedness of a segment list. -/
def segWFList : List Segment → Bool
  | [] => true
  | seg :: rest => segWFSeg seg && segWFList rest
termination_by structural l => l

end

/-- The segment parsers only build well-formed segments, and a successful
`parseSegments` always returns at least one segment. -/
theorem parse_segments_wf : ∀ fuel : Nat,
    (∀ ts segs ts', parseSegments fuel ts = .ok (segs, ts') →
      segWFList segs = true ∧ segs ≠ []) ∧
    (∀ ts seg ts', parseSegment fuel ts = .ok (seg, ts') → segWFSeg seg = true) ∧
    (∀ ts seg ts', parseOptional fuel ts = .ok (seg, ts') → segWFSeg seg = true) := by
  intro fuel
  induction fuel with
  | zero =>
    refine ⟨fun ts x ts' h => ?_, fun ts x ts' h => ?_, fun ts x ts' h => ?_⟩ <;>
      exact absurd h (by simp [parseSegments, parseSegment, parseOptional])
  | succ fuel ih =>
    obtain ⟨ihSegs, ihSeg, ihOpt⟩ := ih
    refine ⟨fun ts segs ts' h => ?_, fun ts seg ts' h => ?_, fun ts seg ts' h => ?_⟩
    · rw [parseSegments] at h
      split at h
      · exact absurd h (by simp)
      · rename_i seg ts₁ hseg
        have hwf := ihSeg _ _ _ hseg
        split at h
        · cases h; exact ⟨by simp [segWFList, hwf], by simp⟩
        · cases h; exact ⟨by simp [segWFList, hwf], by simp⟩
        · exact absurd h (by simp)
        · split at h
          · exact absurd h (by simp)
          · rename_i segs₂ ts₂ hrec
            cases h
            obtain ⟨hwfs, _⟩ := ihSegs _ _ _ hrec
            exact ⟨by simp [segWFList, hwf, hwfs], by simp⟩
        · split at h
          · exact absurd h (by simp)
          · rename_i segs₂ ts₂ hrec
            cases h
            obtain ⟨hwfs, _⟩ := ihSegs _ _ _ hrec
            exact ⟨by simp [segWFList, hwf, hwfs], by simp⟩
        · exact absurd h (by simp)
    · rw [parseSegment] at h
      split at h
      · exact ihOpt _ _ _ h
      · split at h
        · exact absurd h (by simp)
        · cases h; simp [segWFSeg, segWFList]
    · rw [parseOptional] at h
      split at h
      · exact absurd h (by simp)
      · split at h
        · exact absurd h (by simp)
        · split at h
          · exact absurd h (by simp)
          · rename_i subs ts₃ hrec
            split at h
            · exact absurd h (by simp)
            · split at h
              · exact absurd h (by simp)
              · cases h
                obtain ⟨hwfs, hne⟩ := ihSegs _ _ _ hrec
                simp [segWFSeg, hwfs, hne]

/-- A successful `parseDefinitionNode` yields a definition-tagged node. -/
theorem parseDefinitionNode_type {ts : TokStream} {node : Node} {ts' : TokStream}
    (h : parseDefinitionNode ts = .ok (node, ts')) : node.type = .definition := by
  rw [parseDefinitionNode] at h
  dsimp only at h
  split at h
  · split at h
    · split at h
      · cases h; rfl
      · exact absurd h (by simp)
    · exact absurd h (by simp)
  · exact absurd h (by simp)

/-- A successful `parseFilenameNode` yields a filename-tagged node whose
recorded filename has a well-formed segment tree and an extension read
from an identifier token of the input stream. -/
theorem parseFilenameNode_ok {fuel : Nat} {ts : TokStream} {node : Node} {ts' : TokStream}
    (h : parseFilenameNode fuel ts = .ok (node, ts')) :
    node.type = .filename ∧
      segWFList (node.filename.getD zeroFilename).segments = true := by
  rw [parseFilenameNode] at h
  split at h
  · split at h
    · exact absurd h (by simp)
    · rename_i segments ts₂ hsegs
      split at h
      · split at h
        · exact absurd h (by simp)
        · cases h
          exact ⟨rfl, (parse_segments_wf fuel).1 _ _ _ hsegs |>.1⟩
      · exact absurd h (by simp)
  · exact absurd h (by simp)

/-- The statement loop preserves well-formedness of the recorded
filename's segment tree. -/
theorem parseFileLoop_filename_wf : ∀ (fuel : Nat) (ts : TokStream) (s s' : Synta),
    parseFileLoop fuel ts s = .ok s' →
    segWFList s.filename.segments = true →
    segWFList s'.filename.segments = true := by
  intro fuel
  induction fuel with
  | zero => intro ts s s' h _; exact absurd h (by simp [parseFileLoop])
  | succ fuel ih =>
    intro ts s s' h hwf
    rw [parseFileLoop] at h
    by_cases he : (curTok ts).type = .eof
    · rw [if_pos he] at h
      obtain ⟨hs, -, -⟩ := finalizeSynta_ok h
      rw [hs]; exact hwf
    · rw [if_neg he] at h
      split at h
      · exact absurd h (by simp)
      · rename_i node ts₁ hn
        split at h
        · exact absurd h (by simp)
        · rename_i s₂ hs₂
          refine ih _ _ _ h ?_
          rw [applyNode] at hs₂
          split at hs₂
          · split at hs₂
            · exact absurd hs₂ (by simp)
            · cases hs₂; exact hwf
          · split at hs₂
            · exact absurd hs₂ (by simp)
            · cases hs₂
              rename_i hftype _
              rw [parseNodeStep] at hn
              split at hn
              · exact absurd (parseDefinitionNode_type hn) (by rw [hftype]; simp)
              · exact absurd (parseDefinitionNode_type hn) (by rw [hftype]; simp)
              · exact (parseFilenameNode_ok hn).2
              · exact absurd hn (by simp)

/-- C9: in every document returned by a successful parse, every segment
of kind optional has a non-empty subsegments list, recursively at every
nesting depth (`segWFList` states exactly this for the whole tree). -/
theorem C9_optional_children_nonempty (contents : String) (s : Synta)
    (h : ParseSynta contents = .ok s) :
    segWFList s.filename.segments = true := by
  rw [ParseSynta] at h
  split at h
  · exact absurd h (by simp)
  · rw [parseFile] at h
    split at h
    · exact absurd h (by simp)
    · exact parseFileLoop_filename_wf _ _ _ _ h rfl

/-- Witness for C9 on the concrete parse of `exampleSrc`. -/
theorem C9_witness : segWFList exampleParsed.filename.segments = true :=
  C9_optional_children_nonempty exampleSrc exampleParsed rfl

/-- C8: in a segment sequence, after a parsed segment a `(` token is not
consumed and another segment is parsed directly (an optional group may
immediately follow with no dash), while an identifier token directly
after a segment is rejected with the expected-separator error; shown in
general over the parser state, and end-to-end on `a(-b)?.a` (accepted)
and `(-b)?a.a` (rejected). -/
theorem C8_segment_adjacency :
    (∀ (fuel : Nat) (ts : TokStream) (seg : Segment) (ts₁ : TokStream),
        parseSegment fuel ts = .ok (seg, ts₁) →
        (curTok ts₁).type = .lparen →
        parseSegments (fuel + 1) ts =
          (match parseSegments fuel ts₁ with
           | .error e => .error e
           | .ok (segs, ts₂) => .ok (seg :: segs, ts₂))) ∧
    (∀ (fuel : Nat) (ts : TokStream) (seg : Segment) (ts₁ : TokStream),
        parseSegment fuel ts = .ok (seg, ts₁) →
        (curTok ts₁).type = .identifier →
        parseSegments (fuel + 1) ts = .error (.expectedSegmentSeparator .identifier)) ∧
    ParseSynta "a = x\nb = y\n> a(-b)?.a" = .ok exampleParsed ∧
    ParseSynta "a = x\nb = y\n> (-b)?a.a" = .error (.expectedSegmentSeparator .identifier) := by
  refine ⟨?_, ?_, rfl, rfl⟩
  · intro fuel ts seg ts₁ h hcur
    rw [parseSegments, h]
    dsimp only
    rw [hcur]
  · intro fuel ts seg ts₁ h hcur
    rw [parseSegments, h]
    dsimp only
    rw [hcur]

/-- Witness for C8's general parts at a concrete parser state: after the
segment `a`, the directly adjacent identifier token `b` aborts the
segment sequence with the expected-separator error. -/
theorem C8_witness :
    parseSegments 2 ⟨[⟨.identifier, "a", 0, 1⟩, ⟨.identifier, "b", 1, 1⟩,
        ⟨.dot, ".", 2, 1⟩], 1⟩ = .error (.expectedSegmentSeparator .identifier) :=
  C8_segment_adjacency.2.1 1
    ⟨[⟨.identifier, "a", 0, 1⟩, ⟨.identifier, "b", 1, 1⟩, ⟨.dot, ".", 2, 1⟩], 1⟩
    (.mk .identifier (some "a") [])
    ⟨[⟨.identifier, "b", 1, 1⟩, ⟨.dot, ".", 2, 1⟩], 1⟩ rfl rfl

/-! ## Lexer lemmas: definition-line splitting and the identifier check -/

/-- C4 (code behaviour at the claim's failing inputs): the definition
lines `aB = x` and `a1 = x` are *accepted* by the lexer, and a whole
source containing `aB = x` parses successfully, with `aB` recorded as a
definition key.  Go's `IdentifierRegexp` is `[a-z]+` without anchors and
is used through the unanchored `regexp.Match`, so any left part
containing at least one lowercase letter passes the check; the claimed
full-match rejection does not happen. -/
theorem C4_lexer_accepts_invalid_identifier :
    identifierRegexpMatch "aB".data = true ∧
    tokenizeDefinition "aB = x".data 1 =
      .ok [⟨.identifier, "aB", 0, 1⟩, ⟨.equals, "=", 0, 1⟩, ⟨.regexpPattern, "x", 0, 1⟩] ∧
    tokenizeDefinition "a1 = x".data 1 =
      .ok [⟨.identifier, "a1", 0, 1⟩, ⟨.equals, "=", 0, 1⟩, ⟨.regexpPattern, "x", 0, 1⟩] ∧
    (∃ s : Synta, ParseSynta "aB = x\na = y\n> a.a" = .ok s ∧
      (lookupD s.definitions "aB").isSome = true) :=
  ⟨rfl, rfl, rfl,
    ⟨⟨[⟨.definition, "aB", some ⟨[], some "x"⟩, none⟩,
       ⟨.definition, "a", some ⟨[], some "y"⟩, none⟩,
       ⟨.filename, "", none, some ⟨[.mk .identifier (some "a") []], "a"⟩⟩],
      [("a", ⟨[], some "y"⟩), ("aB", ⟨[], some "x"⟩)],
      ⟨[.mk .identifier (some "a") []], "a"⟩⟩, rfl, rfl⟩⟩

/-- C5 counterexample: the definition line `a = b = c` lexes successfully
and its RegexpPattern token's value is `b = c`, which itself contains the
substring `" = "` — so a pattern text containing `" = "` *is*
representable by a definition line, contrary to the claim. -/
theorem C5_counterexample_pattern_with_sep :
    tokenizeDefinition "a = b = c".data 1 =
      .ok [⟨.identifier, "a", 0, 1⟩, ⟨.equals, "=", 0, 1⟩, ⟨.regexpPattern, "b = c", 0, 1⟩] ∧
    (splitOnce " = ".data "b = c".data).isSome = true :=
  ⟨rfl, rfl⟩

/-- A lowercase letter is not a space, so `" = "` cannot start inside an
all-letter prefix. -/
theorem isLetter_ne_space {c : Char} (h : isLetter c = true) : (' ' == c) = false := by
  rw [beq_eq_false_iff_ne]
  intro e
  rw [← e] at h
  exact absurd h (by decide)

/-- The `splitOnce` splits at the first separator occurrence: prefixing an
all-letter left part shifts the split point past it. -/
theorem splitOnce_letters_append (right : List Char) :
    ∀ left : List Char, left.all isLetter = true →
      splitOnce (' ' :: '=' :: ' ' :: []) (left ++ ' ' :: '=' :: ' ' :: right) =
        some (left, right) := by
  intro left
  induction left with
  | nil =>
    intro _
    rw [List.nil_append, splitOnce]
    simp [List.isPrefixOf]
  | cons c cs ih =>
    intro hall
    rw [List.all_cons, Bool.and_eq_true] at hall
    rw [List.cons_append, splitOnce]
    rw [show List.isPrefixOf (' ' :: '=' :: ' ' :: [])
          (c :: (cs ++ ' ' :: '=' :: ' ' :: right)) = false by
        simp [List.isPrefixOf, isLetter_ne_space hall.1]]
    simp only [Bool.false_eq_true, if_false, ih hall.2]
    rfl

/-- C5 (amended): a definition line is split exactly once on the *first*
occurrence of `" = "`; the right part becomes the RegexpPattern token's
value verbatim even when it itself contains `" = "`, so such pattern
texts are representable (only a line with no `" = "` at all is a lex
error). -/
theorem C5_amended_split_at_first_separator (left right : List Char) (lineNum : Nat)
    (hne : left ≠ []) (hletters : left.all isLetter = true) :
    tokenizeDefinition (left ++ ' ' :: '=' :: ' ' :: right) lineNum =
      .ok [⟨.identifier, ⟨left⟩, 0, lineNum⟩, ⟨.equals, "=", 0, lineNum⟩,
           ⟨.regexpPattern, ⟨right⟩, 0, lineNum⟩] := by
  have hm : identifierRegexpMatch left = true := by
    cases left with
    | nil => exact absurd rfl hne
    | cons c cs =>
      rw [List.all_cons, Bool.and_eq_true] at hletters
      simp [identifierRegexpMatch, hletters.1]
  rw [tokenizeDefinition, splitOnce_letters_append right left hletters]
  dsimp only
  rw [if_pos hm]

/-- Witness for the amended C5: left part `a`, right part `b = c`
(containing the separator). -/
theorem C5_amended_witness :
    tokenizeDefinition ("a".data ++ ' ' :: '=' :: ' ' :: "b = c".data) 1 =
      .ok [⟨.identifier, ⟨"a".data⟩, 0, 1⟩, ⟨.equals, "=", 0, 1⟩,
           ⟨.regexpPattern, ⟨"b = c".data⟩, 0, 1⟩] :=
  C5_amended_split_at_first_separator "a".data "b = c".data 1 (by decide) (by decide)

/-! ## Helper lemmas: comment-only inputs -/

/-- On an all-comment token list, the comment-collecting loop consumes
everything. -/
theorem collectCommentsL_all {l : List Token} (h : ∀ t ∈ l, t.type = .comment) :
    (collectCommentsL l).2 = [] := by
  induction l with
  | nil => rfl
  | cons t rest ih =>
    rw [collectCommentsL, if_pos (h t (List.mem_cons_self t rest))]
    exact ih (fun t' ht' => h t' (List.mem_cons_of_mem _ ht'))

/-- A line starting with `;` lexes to exactly one comment token. -/
theorem tokenizeLine_comment {line : List Char} {ln : Nat}
    (h : line.head? = some ';') :
    tokenizeLine line ln = .ok [⟨.comment, ⟨trimSpace line.tail⟩, 0, ln⟩] := by
  cases line with
  | nil => exact absurd h (by simp)
  | cons c rest =>
    rw [show c = ';' from Option.some.inj (by simpa using h)]
    rfl

/-- All-comment line lists lex to all-comment token lists of the same
length. -/
theorem tokenizeLines_comments : ∀ (nlines : List (Nat × List Char)),
    (∀ p ∈ nlines, (p.2).head? = some ';') →
    ∃ toks, tokenizeLines nlines = .ok toks ∧ toks.length = nlines.length ∧
      ∀ t ∈ toks, t.type = .comment := by
  intro nlines
  induction nlines with
  | nil => exact fun _ => ⟨[], rfl, rfl, by simp⟩
  | cons p rest ih =>
    intro h
    obtain ⟨toks, htl, hlen, hcomm⟩ := ih (fun q hq => h q (List.mem_cons_of_mem _ hq))
    obtain ⟨ln, line⟩ := p
    refine ⟨⟨.comment, ⟨trimSpace line.tail⟩, 0, ln⟩ :: toks, ?_, by simp [hlen], ?_⟩
    · rw [tokenizeLines, tokenizeLine_comment (h (ln, line) (List.mem_cons_self _ _)), htl]
      rfl
    · intro t ht
      rcases List.mem_cons.mp ht with ht | ht
      · rw [ht]
      · exact hcomm t ht

/-- Every line that survives the blank filter of an all-comment-or-blank
input starts with `;`. -/
theorem numberLines_comment {raw : List (List Char)}
    (h : ∀ l ∈ raw, trimSpace (dropCR l) = [] ∨ (trimSpace (dropCR l)).head? = some ';') :
    ∀ (n : Nat) (p : Nat × List Char), p ∈ numberLines n raw → (p.2).head? = some ';' := by
  induction raw with
  | nil => intro n p hp; simp [numberLines] at hp
  | cons l rest ih =>
    intro n p hp
    rw [numberLines] at hp
    by_cases he : (trimSpace (dropCR l)).isEmpty
    · rw [if_pos he] at hp
      exact ih (fun l' hl' => h l' (List.mem_cons_of_mem _ hl')) (n + 1) p hp
    · rw [if_neg he] at hp
      rcases List.mem_cons.mp hp with hp | hp
      · subst hp
        rcases h l (List.mem_cons_self l rest) with h' | h'
        · exact absurd (by rw [h']; rfl) he
        · exact h'
      · exact ih (fun l' hl' => h l' (List.mem_cons_of_mem _ hl')) (n + 1) p hp

/-- The blank filter yields no lines exactly when every physical line is
blank after trimming. -/
theorem numberLines_eq_nil (raw : List (List Char)) : ∀ n : Nat,
    numberLines n raw = [] ↔
      raw.all (fun l => (trimSpace (dropCR l)).isEmpty) = true := by
  induction raw with
  | nil => intro n; simp [numberLines]
  | cons l rest ih =>
    intro n
    rw [numberLines]
    by_cases he : (trimSpace (dropCR l)).isEmpty
    · rw [if_pos he]; simp [he, ih (n + 1)]
    · rw [if_neg he]; simp [he]

/-- On an all-comment stream, the statement loop consumes every comment
inside the first definition statement and then fails expecting an
identifier at the EOF token. -/
theorem parseFileLoop_all_comments (fuel : Nat) (hf : fuel ≠ 0) (ts : TokStream) (s : Synta)
    (hne : ts.toks ≠ []) (hall : ∀ t ∈ ts.toks, t.type = .comment) :
    parseFileLoop fuel ts s = .error (.expectedIdentifierAt ts.eofLine .eof) := by
  cases fuel with
  | zero => exact absurd rfl hf
  | succ fuel =>
    obtain ⟨t, rest, hts⟩ : ∃ t rest, ts.toks = t :: rest := by
      cases h : ts.toks with
      | nil => exact absurd h hne
      | cons a b => exact ⟨a, b, rfl⟩
    have hcur : curTok ts = t := by rw [curTok, hts]
    have hcty : (curTok ts).type = .comment := by
      rw [hcur]; exact hall t (hts ▸ List.mem_cons_self t rest)
    have hdn : parseDefinitionNode ts = .error (.expectedIdentifierAt ts.eofLine .eof) := by
      rw [parseDefinitionNode]
      dsimp only
      rw [collectCommentsL_all hall]
      rfl
    have hns : parseNodeStep fuel ts = parseDefinitionNode ts := by
      rw [parseNodeStep, hcty]
    rw [parseFileLoop, if_neg (by rw [hcty]; exact fun h => nomatch h), hns, hdn]

/-- C6 counterexample: an input consisting only of a comment line fails,
but with the grammar error "expected identifier … got EOF" raised inside
the definition statement that the leading comment opens — not with the
missing-filename-declaration error the claim names. -/
theorem C6_counterexample_comment_only_error :
    ParseSynta ";hello" = .error (.expectedIdentifierAt 1 .eof) ∧
    SyntaErr.expectedIdentifierAt 1 .eof ≠ SyntaErr.missingFilenameDeclaration :=
  ⟨rfl, by decide⟩

/-- C6 (amended): an input consisting only of comment lines and blank
lines (no filename line) fails to parse — with the empty-file error when
every line is blank, and otherwise with the expected-identifier grammar
error at the EOF token (whose line number is the physical line count). -/
theorem C6_amended_comments_only (contents : String)
    (h : ∀ l ∈ splitLines contents.data,
        trimSpace (dropCR l) = [] ∨ (trimSpace (dropCR l)).head? = some ';') :
    ParseSynta contents =
      .error (if (splitLines contents.data).all (fun l => (trimSpace (dropCR l)).isEmpty)
              then SyntaErr.emptyFile
              else .expectedIdentifierAt (splitLines contents.data).length .eof) := by
  obtain ⟨toks, htl, hlen, hcomm⟩ :=
    tokenizeLines_comments (numberLines 0 (splitLines contents.data))
      (numberLines_comment h 0)
  have hlex : lexContents contents = .ok ⟨toks, (splitLines contents.data).length⟩ := by
    rw [lexContents]
    rw [htl]
  rw [ParseSynta, hlex]
  dsimp only
  by_cases hb : (splitLines contents.data).all
      (fun l => (trimSpace (dropCR l)).isEmpty) = true
  · have hnl : numberLines 0 (splitLines contents.data) = [] :=
      (numberLines_eq_nil _ 0).mpr hb
    have htoks : toks = [] := by
      rw [hnl, tokenizeLines] at htl
      exact (Except.ok.inj htl).symm
    subst htoks
    rw [if_pos hb, parseFile]
    simp [curTok]
  · have hnl : numberLines 0 (splitLines contents.data) ≠ [] :=
      fun e => hb ((numberLines_eq_nil _ 0).mp e)
    have htoks : toks ≠ [] := by
      intro e
      rw [e] at hlen
      exact hnl (List.length_eq_zero.mp hlen.symm)
    obtain ⟨t, rest, hts⟩ : ∃ t rest, toks = t :: rest := by
      cases e : toks with
      | nil => exact absurd e htoks
      | cons a b => exact ⟨a, b, rfl⟩
    have hcty : (curTok ⟨toks, (splitLines contents.data).length⟩).type = .comment := by
      rw [hts, curTok]
      exact hcomm t (hts ▸ List.mem_cons_self t rest)
    rw [if_neg hb, parseFile, if_neg (by rw [hcty]; exact fun h' => nomatch h')]
    exact parseFileLoop_all_comments _ (by simp) _ _ htoks hcomm

/-- Witness for the amended C6 at the concrete comment-only input. -/
theorem C6_witness :
    ParseSynta ";hello" =
      .error (if (splitLines ";hello".data).all (fun l => (trimSpace (dropCR l)).isEmpty)
              then SyntaErr.emptyFile
              else .expectedIdentifierAt (splitLines ";hello".data).length .eof) :=
  C6_amended_comments_only ";hello" (by decide)

/-! ## Helper lemmas: identifier tokens carry non-empty values -/

/-- Well-formedness of a token list: every identifier token has a
non-empty value (both lexer paths build identifier values from at least
one lowercase letter). -/
def wfToks (l : List Token) : Prop :=
  ∀ t ∈ l, t.type = .identifier → t.value ≠ ""

/-- Inversion of `Except.map` on a success. -/
theorem exceptMap_ok {α β : Type} {f : α → β} {x : Except SyntaErr α} {y : β} :
    x.map f = .ok y ↔ ∃ a, x = .ok a ∧ f a = y := by
  cases x <;> simp [Except.map]

/-- The filename-segment scanner emits only well-formed tokens. -/
theorem scanFilename_wf (ln : Nat) : ∀ (fuel : Nat) (s : List Char) (pos : Nat)
    (toks : List Token), scanFilename ln fuel s pos = .ok toks → wfToks toks := by
  intro fuel
  induction fuel with
  | zero => intro s pos toks h; exact absurd h (by simp [scanFilename])
  | succ fuel ih =>
    intro s pos toks h
    cases s with
    | nil =>
      rw [scanFilename] at h
      cases h
      intro t ht
      simp at ht
    | cons c rest =>
      rw [scanFilename] at h
      split at h
      · obtain ⟨toks', hrec, hcons⟩ := exceptMap_ok.mp h
        subst hcons
        intro t ht hty
        rcases List.mem_cons.mp ht with ht | ht
        · rw [ht] at hty; simp at hty
        · exact ih _ _ _ hrec t ht hty
      · split at h
        · obtain ⟨toks', hrec, hcons⟩ := exceptMap_ok.mp h
          subst hcons
          intro t ht hty
          rcases List.mem_cons.mp ht with ht | ht
          · rw [ht] at hty; simp at hty
          · exact ih _ _ _ hrec t ht hty
        · split at h
          · obtain ⟨toks', hrec, hcons⟩ := exceptMap_ok.mp h
            subst hcons
            intro t ht hty
            rcases List.mem_cons.mp ht with ht | ht
            · rw [ht] at hty; simp at hty
            · exact ih _ _ _ hrec t ht hty
          · split at h
            · obtain ⟨toks', hrec, hcons⟩ := exceptMap_ok.mp h
              subst hcons
              intro t ht hty
              rcases List.mem_cons.mp ht with ht | ht
              · rw [ht] at hty; simp at hty
              · exact ih _ _ _ hrec t ht hty
            · split at h
              · obtain ⟨toks', hrec, hcons⟩ := exceptMap_ok.mp h
                subst hcons
                intro t ht hty
                rcases List.mem_cons.mp ht with ht | ht
                · rw [ht] at hty; simp at hty
                · exact ih _ _ _ hrec t ht hty
              · split at h
                · obtain ⟨toks', hrec, hcons⟩ := exceptMap_ok.mp h
                  subst hcons
                  intro t ht hty
                  rcases List.mem_cons.mp ht with ht | ht
                  · rw [ht]
                    simp [String.ext_iff]
                  · exact ih _ _ _ hrec t ht hty
                · exact absurd h (by simp)

/-- Definition lines emit only well-formed tokens: the identifier token's
value contains at least one lowercase letter. -/
theorem tokenizeDefinition_wf {line : List Char} {ln : Nat} {toks : List Token}
    (h : tokenizeDefinition line ln = .ok toks) : wfToks toks := by
  rw [tokenizeDefinition] at h
  split at h
  · exact absurd h (by simp)
  · rename_i id pat heq
    split at h
    · rename_i hm
      cases h
      intro t ht hty
      rcases List.mem_cons.mp ht with ht | ht
      · subst ht
        intro he
        have hnil : id = [] := congrArg String.data he
        rw [hnil] at hm
        exact absurd hm (by simp [identifierRegexpMatch])
      · rcases List.mem_cons.mp ht with ht | ht
        · rw [ht] at hty; simp at hty
        · rcases List.mem_cons.mp ht with ht | ht
          · rw [ht] at hty; simp at hty
          · simp at ht
    · exact absurd h (by simp)

/-- Any single line emits only well-formed tokens. -/
theorem tokenizeLine_wf {line : List Char} {ln : Nat} {toks : List Token}
    (h : tokenizeLine line ln = .ok toks) : wfToks toks := by
  rw [tokenizeLine.eq_def] at h
  split at h
  · cases h
    intro t ht hty
    rcases List.mem_cons.mp ht with ht | ht
    · rw [ht] at hty; simp at hty
    · simp at ht
  · obtain ⟨toks', hrec, hcons⟩ := exceptMap_ok.mp h
    subst hcons
    intro t ht hty
    rcases List.mem_cons.mp ht with ht | ht
    · rw [ht] at hty; simp at hty
    · exact scanFilename_wf _ _ _ _ _ hrec t ht hty
  · exact tokenizeDefinition_wf h

/-- Whole-input lexing emits only well-formed tokens. -/
theorem tokenizeLines_wf : ∀ {nlines : List (Nat × List Char)} {toks : List Token},
    tokenizeLines nlines = .ok toks → wfToks toks := by
  intro nlines
  induction nlines with
  | nil => intro toks h; cases h; intro t ht; simp at ht
  | cons p rest ih =>
    intro toks h
    obtain ⟨ln, line⟩ := p
    rw [tokenizeLines] at h
    split at h
    · exact absurd h (by simp)
    · rename_i ts hts
      split at h
      · exact absurd h (by simp)
      · rename_i more hmore
        cases h
        intro t ht hty
        rcases List.mem_append.mp ht with ht | ht
        · exact tokenizeLine_wf hts t ht hty
        · exact ih hmore t ht hty

/-- The `lexContents` produces only well-formed token streams. -/
theorem lexContents_wf {contents : String} {ts : TokStream}
    (h : lexContents contents = .ok ts) : wfToks ts.toks := by
  rw [lexContents] at h
  split at h
  · exact absurd h (by simp)
  · rename_i toks htoks
    cases h
    exact tokenizeLines_wf htoks

/-! ## Helper lemmas: the parser only consumes tokens -/

/-- Advancing drops the head, so the remaining tokens are among the
original ones. -/
theorem advT_subset (ts : TokStream) : (advT ts).toks ⊆ ts.toks := by
  obtain ⟨toks, e⟩ := ts
  cases toks with
  | nil => exact fun a ha => ha
  | cons t rest => exact fun a ha => List.mem_cons_of_mem t ha

/-- Inversion of `expect` on success. -/
theorem expect_ok {tt : TokenType} {ts ts' : TokStream}
    (h : expect tt ts = .ok ts') : ts' = advT ts ∧ (curTok ts).type = tt := by
  rw [expect] at h
  split at h
  · exact ⟨(Except.ok.inj h).symm, by assumption⟩
  · exact absurd h (by simp)

/-- Inversion of `parseIdentifier` on success. -/
theorem parseIdentifier_ok {ts : TokStream} {id : Identifier} {ts' : TokStream}
    (h : parseIdentifier ts = .ok (id, ts')) :
    (curTok ts).type = .identifier ∧ id = (curTok ts).value ∧ ts' = advT ts := by
  rw [parseIdentifier] at h
  split at h
  · have := Except.ok.inj h
    exact ⟨by assumption, (congrArg Prod.fst this).symm, (congrArg Prod.snd this).symm⟩
  · exact absurd h (by simp)

/-- The segment parsers only consume tokens: the remaining stream is a
sub-collection of the input stream. -/
theorem parse_segments_subset : ∀ fuel : Nat,
    (∀ ts segs ts', parseSegments fuel ts = .ok (segs, ts') → ts'.toks ⊆ ts.toks) ∧
    (∀ ts seg ts', parseSegment fuel ts = .ok (seg, ts') → ts'.toks ⊆ ts.toks) ∧
    (∀ ts seg ts', parseOptional fuel ts = .ok (seg, ts') → ts'.toks ⊆ ts.toks) := by
  intro fuel
  induction fuel with
  | zero =>
    refine ⟨fun ts x ts' h => ?_, fun ts x ts' h => ?_, fun ts x ts' h => ?_⟩ <;>
      exact absurd h (by simp [parseSegments, parseSegment, parseOptional])
  | succ fuel ih =>
    obtain ⟨ihSegs, ihSeg, ihOpt⟩ := ih
    refine ⟨fun ts segs ts' h => ?_, fun ts seg ts' h => ?_, fun ts seg ts' h => ?_⟩
    · rw [parseSegments] at h
      split at h
      · exact absurd h (by simp)
      · rename_i seg ts₁ hseg
        have hsub := ihSeg _ _ _ hseg
        split at h
        · cases h; exact hsub
        · cases h; exact hsub
        · exact absurd h (by simp)
        · split at h
          · exact absurd h (by simp)
          · rename_i segs₂ ts₂ hrec
            cases h
            exact ((ihSegs _ _ _ hrec).trans (advT_subset ts₁)).trans hsub
        · split at h
          · exact absurd h (by simp)
          · rename_i segs₂ ts₂ hrec
            cases h
            exact (ihSegs _ _ _ hrec).trans hsub
        · exact absurd h (by simp)
    · rw [parseSegment] at h
      split at h
      · exact ihOpt _ _ _ h
      · split at h
        · exact absurd h (by simp)
        · rename_i id ts₁ hid
          cases h
          obtain ⟨-, -, hts⟩ := parseIdentifier_ok hid
          rw [hts]
          exact advT_subset ts
    · rw [parseOptional] at h
      split at h
      · exact absurd h (by simp)
      · rename_i ts₁ h₁
        split at h
        · exact absurd h (by simp)
        · rename_i ts₂ h₂
          split at h
          · exact absurd h (by simp)
          · rename_i subs ts₃ hrec
            split at h
            · exact absurd h (by simp)
            · rename_i ts₄ h₄
              split at h
              · exact absurd h (by simp)
              · rename_i ts₅ h₅
                cases h
                have e₁ := (expect_ok h₁).1
                have e₂ := (expect_ok h₂).1
                have e₄ := (expect_ok h₄).1
                have e₅ := (expect_ok h₅).1
                have s₅ : ts'.toks ⊆ ts₄.toks := by rw [e₅]; exact advT_subset ts₄
                have s₄ : ts₄.toks ⊆ ts₃.toks := by rw [e₄]; exact advT_subset ts₃
                have s₃ : ts₃.toks ⊆ ts₂.toks := ihSegs _ _ _ hrec
                have s₂ : ts₂.toks ⊆ ts₁.toks := by rw [e₂]; exact advT_subset ts₁
                have s₁ : ts₁.toks ⊆ ts.toks := by rw [e₁]; exact advT_subset ts
                exact (((s₅.trans s₄).trans s₃).trans s₂).trans s₁

/-- Comment collection only consumes tokens. -/
theorem collectCommentsL_subset : ∀ l : List Token, (collectCommentsL l).2 ⊆ l := by
  intro l
  induction l with
  | nil => exact fun a ha => ha
  | cons t rest ih =>
    rw [collectCommentsL]
    by_cases hc : t.type = .comment
    · rw [if_pos hc]
      exact fun a ha => List.mem_cons_of_mem t (ih ha)
    · rw [if_neg hc]
      exact fun a ha => ha

/-- A definition statement only consumes tokens. -/
theorem parseDefinitionNode_subset {ts : TokStream} {node : Node} {ts' : TokStream}
    (h : parseDefinitionNode ts = .ok (node, ts')) : ts'.toks ⊆ ts.toks := by
  rw [parseDefinitionNode] at h
  dsimp only at h
  split at h
  · split at h
    · split at h
      · cases h
        refine (advT_subset _).trans ((advT_subset _).trans ((advT_subset _).trans ?_))
        exact collectCommentsL_subset ts.toks
      · exact absurd h (by simp)
    · exact absurd h (by simp)
  · exact absurd h (by simp)

/-- A filename statement only consumes tokens, and (on a well-formed
stream) records a non-empty extension. -/
theorem parseFilenameNode_consume {fuel : Nat} {ts : TokStream} {node : Node} {ts' : TokStream}
    (h : parseFilenameNode fuel ts = .ok (node, ts')) :
    ts'.toks ⊆ ts.toks ∧
      (wfToks ts.toks → (node.filename.getD zeroFilename).extension ≠ "") := by
  rw [parseFilenameNode] at h
  split at h
  · split at h
    · exact absurd h (by simp)
    · rename_i segments ts₂ hsegs
      split at h
      · rename_i hdot
        split at h
        · exact absurd h (by simp)
        · rename_i ext ts₄ hid
          cases h
          obtain ⟨hty, hval, hts⟩ := parseIdentifier_ok hid
          have hsub₂ : ts₂.toks ⊆ ts.toks :=
            ((parse_segments_subset fuel).1 _ _ _ hsegs).trans (advT_subset ts)
          have hsub₃ : (advT ts₂).toks ⊆ ts.toks := (advT_subset ts₂).trans hsub₂
          constructor
          · rw [hts]
            exact (advT_subset _).trans hsub₃
          · intro hwf
            have hne : (advT ts₂).toks ≠ [] := by
              intro he
              rw [curTok, he] at hty
              exact absurd hty (by simp)
            obtain ⟨t, rest, hcons⟩ : ∃ t rest, (advT ts₂).toks = t :: rest := by
              cases e : (advT ts₂).toks with
              | nil => exact absurd e hne
              | cons a b => exact ⟨a, b, rfl⟩
            have hmem : curTok (advT ts₂) ∈ (advT ts₂).toks := by
              rw [curTok, hcons]
              exact List.mem_cons_self t rest
            have := hwf (curTok (advT ts₂)) (hsub₃ hmem) hty
            simpa [hval] using this
      · exact absurd h (by simp)
  · exact absurd h (by simp)

/-- The statement dispatch only consumes tokens. -/
theorem parseNodeStep_subset {fuel : Nat} {ts : TokStream} {node : Node} {ts' : TokStream}
    (h : parseNodeStep fuel ts = .ok (node, ts')) : ts'.toks ⊆ ts.toks := by
  rw [parseNodeStep] at h
  split at h
  · exact parseDefinitionNode_subset h
  · exact parseDefinitionNode_subset h
  · exact (parseFilenameNode_consume h).1
  · exact absurd h (by simp)

/-! ## Helper lemmas: uniqueness of definitions and the filename -/

/-- The identifiers of the definition-tagged nodes, in source order. -/
def defIds (nodes : List Node) : List Identifier :=
  (nodes.filter (fun n => decide (n.type = NodeType.definition))).map
    (fun n => n.identifier)

/-- The number of filename-tagged nodes. -/
def fnCount (nodes : List Node) : Nat :=
  (nodes.filter (fun n => decide (n.type = NodeType.filename))).length

/-- Appending a definition node appends its identifier. -/
theorem defIds_append_def {nodes : List Node} {node : Node}
    (h : node.type = .definition) :
    defIds (nodes ++ [node]) = defIds nodes ++ [node.identifier] := by
  simp [defIds, List.filter_append, h]

/-- Appending a filename node leaves the definition identifiers alone. -/
theorem defIds_append_fn {nodes : List Node} {node : Node}
    (h : node.type = .filename) :
    defIds (nodes ++ [node]) = defIds nodes := by
  simp [defIds, List.filter_append, h]

/-- Appending a definition node leaves the filename count alone. -/
theorem fnCount_append_def {nodes : List Node} {node : Node}
    (h : node.type = .definition) :
    fnCount (nodes ++ [node]) = fnCount nodes := by
  simp [fnCount, List.filter_append, h]

/-- Appending a filename node bumps the filename count. -/
theorem fnCount_append_fn {nodes : List Node} {node : Node}
    (h : node.type = .filename) :
    fnCount (nodes ++ [node]) = fnCount nodes + 1 := by
  simp [fnCount, List.filter_append, h]

/-- The loop invariant behind uniqueness: definition-node identifiers are
distinct and coincide with the keys of the definitions map, and there is
a filename node exactly when a filename (non-empty extension) has been
recorded. -/
def uniqInv (s : Synta) : Prop :=
  (defIds s.nodes).Nodup ∧
  (∀ id : Identifier, id ∈ defIds s.nodes ↔ (lookupD s.definitions id).isSome = true) ∧
  fnCount s.nodes = (if s.filename.extension = "" then 0 else 1)

/-- The `applyNode` preserves the uniqueness invariant (for filename nodes,
granted the recorded extension is non-empty). -/
theorem applyNode_inv {s : Synta} {node : Node} {s₂ : Synta}
    (h : applyNode s node = .ok s₂) (hinv : uniqInv s)
    (hnode : node.type = .definition ∨
      (node.type = .filename ∧ (node.filename.getD zeroFilename).extension ≠ "")) :
    uniqInv s₂ := by
  obtain ⟨hnd, hiff, hcnt⟩ := hinv
  rw [applyNode] at h
  dsimp only at h
  split at h
  · rename_i hty
    split at h
    · exact absurd h (by simp)
    · rename_i hdup
      cases h
      have hnotin : node.identifier ∉ defIds s.nodes := fun hin =>
        hdup ((hiff node.identifier).mp hin)
      refine ⟨?_, ?_, ?_⟩
      · rw [defIds_append_def hty]
        simp [List.nodup_append, hnd, hnotin]
      · intro id
        rw [defIds_append_def hty]
        dsimp only
        rw [lookupD_mapSet]
        by_cases he : id = node.identifier
        · simp [he]
        · simp only [List.mem_append, List.mem_singleton, he, or_false, if_neg he]
          exact hiff id
      · dsimp only
        rw [fnCount_append_def hty]
        exact hcnt
  · rename_i hty
    split at h
    · exact absurd h (by simp)
    · rename_i hext
      cases h
      have hty' : node.type = .filename := hty
      have hnodeext : (node.filename.getD zeroFilename).extension ≠ "" := by
        rcases hnode with hn | hn
        · rw [hn] at hty'; exact absurd hty' (by simp)
        · exact hn.2
      have hempty : s.filename.extension = "" := by
        by_contra hc
        exact hext (by simpa using hc)
      refine ⟨?_, ?_, ?_⟩
      · rw [defIds_append_fn hty']
        exact hnd
      · intro id
        rw [defIds_append_fn hty']
        exact hiff id
      · dsimp only
        rw [fnCount_append_fn hty', hcnt, if_pos hempty, if_neg hnodeext]

/-- Every node the dispatch produces is a definition node or a filename
node with a non-empty extension (on a well-formed stream). -/
theorem parseNodeStep_kind {fuel : Nat} {ts : TokStream} {node : Node} {ts' : TokStream}
    (h : parseNodeStep fuel ts = .ok (node, ts')) (hwf : wfToks ts.toks) :
    node.type = .definition ∨
      (node.type = .filename ∧ (node.filename.getD zeroFilename).extension ≠ "") := by
  rw [parseNodeStep] at h
  split at h
  · exact Or.inl (parseDefinitionNode_type h)
  · exact Or.inl (parseDefinitionNode_type h)
  · exact Or.inr ⟨(parseFilenameNode_ok h).1, (parseFilenameNode_consume h).2 hwf⟩
  · exact absurd h (by simp)

/-- The statement loop, started from a state satisfying the uniqueness
invariant on a well-formed stream, returns documents with distinct
definition identifiers and exactly one filename node. -/
theorem parseFileLoop_uniq : ∀ (fuel : Nat) (ts : TokStream) (s s' : Synta),
    parseFileLoop fuel ts s = .ok s' → wfToks ts.toks → uniqInv s →
    (defIds s'.nodes).Nodup ∧ fnCount s'.nodes = 1 := by
  intro fuel
  induction fuel with
  | zero => intro ts s s' h _ _; exact absurd h (by simp [parseFileLoop])
  | succ fuel ih =>
    intro ts s s' h hwf hinv
    rw [parseFileLoop] at h
    by_cases he : (curTok ts).type = .eof
    · rw [if_pos he] at h
      obtain ⟨hs, hext, -⟩ := finalizeSynta_ok h
      subst hs
      exact ⟨hinv.1, by rw [hinv.2.2, if_neg hext]⟩
    · rw [if_neg he] at h
      split at h
      · exact absurd h (by simp)
      · rename_i p hn
        split at h
        · exact absurd h (by simp)
        · rename_i s₂ hs₂
          refine ih _ _ _ h (fun t ht => hwf t (parseNodeStep_subset hn ht)) ?_
          exact applyNode_inv hs₂ hinv (parseNodeStep_kind hn hwf)

/-- C7: a source with two definition lines sharing an identifier cannot
parse (every successful parse has pairwise-distinct definition-node
identifiers, so the second occurrence is rejected — concretely, with the
duplicate-definition error naming the identifier), and a source with two
filename declarations cannot parse (every successful parse has exactly
one filename node — concretely, the second declaration is rejected with
the multiple-filename-declarations error); in both concrete cases no
document is returned, only the error. -/
theorem C7_uniqueness :
    (∀ (contents : String) (s : Synta), ParseSynta contents = .ok s →
      (defIds s.nodes).Nodup ∧ fnCount s.nodes = 1) ∧
    ParseSynta "a = x\na = y\n> a.a" = .error (.duplicateDefinition "a") ∧
    ParseSynta "a = x\n> a.a\n> a.a" = .error .multipleFilenameDeclarations := by
  refine ⟨?_, rfl, rfl⟩
  intro contents s h
  rw [ParseSynta] at h
  split at h
  · exact absurd h (by simp)
  · rename_i ts hlex
    rw [parseFile] at h
    split at h
    · exact absurd h (by simp)
    · exact parseFileLoop_uniq _ _ _ _ h (lexContents_wf hlex)
        ⟨by simp [defIds], by simp [defIds, lookupD], by simp [fnCount, zeroFilename]⟩

/-- Witness for C7's general part on the concrete parse of `exampleSrc`. -/
theorem C7_witness :
    (defIds exampleParsed.nodes).Nodup ∧ fnCount exampleParsed.nodes = 1 :=
  C7_uniqueness.1 exampleSrc exampleParsed rfl
